import Mathlib

/-!
# Verification of the loom backend core (llm_router.py, embeddings.py)

A shallow embedding of the pure core of the repository:

* `backend/llm_router.py`: JSON extraction from model text (`_extract_json`),
  the permissive fallback (`_fallback_response`), provider routing
  (`LLMRouter._resolve_provider`, `LLMRouter.chat`) and the two request
  builders (`_build_gemini_contents`, `_build_openai_messages`), plus the
  json-mode post-processing tail of `_openai_chat` / `_gemini_chat`.
* `backend/embeddings.py`: `cosine_similarity` and `rank_by_similarity`.

Python strings are Lean `String`s (scanning is done on `List Char`,
mirroring Python's code-point indexing).  Python's `json.loads` is embedded
as an executable recursive-descent parser (`jsonLoads`) following the
reference decoder: JSON whitespace is ` \t\n\r`, objects keep insertion
order with last-duplicate-wins values, strings understand the standard
escapes plus `\uXXXX` (surrogate pairs combined), raw control characters
are rejected (strict mode), and the constants `NaN`/`Infinity`/`-Infinity`
are accepted.  Numbers are kept as their source lexeme.  `dict` values are
insertion-ordered association lists, as in Python 3.7+.
-/

/-- Python `str.isspace`/`str.strip` whitespace (the Unicode whitespace set
used by `str.strip()` and by `re`'s `\s` on `str` patterns). -/
def pyWsB (c : Char) : Bool :=
  [0x9, 0xa, 0xb, 0xc, 0xd, 0x1c, 0x1d, 0x1e, 0x1f, 0x20, 0x85, 0xa0,
   0x1680, 0x2000, 0x2001, 0x2002, 0x2003, 0x2004, 0x2005, 0x2006, 0x2007,
   0x2008, 0x2009, 0x200a, 0x2028, 0x2029, 0x202f, 0x205f, 0x3000].contains c.toNat

/-- Python `str.strip()` on a character list: drop leading and trailing
whitespace. -/
def pyStripL (cs : List Char) : List Char :=
  ((cs.dropWhile pyWsB).reverse.dropWhile pyWsB).reverse

/-- Python `str.strip()`. -/
def pyStrip (s : String) : String :=
  ⟨pyStripL s.data⟩

/-- Python `text[:200]` (code-point slicing). -/
def take200 (s : String) : String :=
  ⟨s.data.take 200⟩

/-- JSON values as produced by Python's `json.loads`.  Objects are
insertion-ordered association lists (Python 3.7+ `dict` ordering); numbers
keep their source lexeme (`0`, `1.5e3`, `NaN`, ...). -/
inductive JsonVal where
  | null : JsonVal
  | bool : Bool → JsonVal
  | num : String → JsonVal
  | str : String → JsonVal
  | arr : List JsonVal → JsonVal
  | obj : List (String × JsonVal) → JsonVal
deriving Inhabited

/-- JSON-decoder whitespace (`json.decoder.WHITESPACE`: space, tab,
newline, carriage return — narrower than Python's `str.strip`). -/
def jsonWsB (c : Char) : Bool :=
  c = ' ' || c = '\t' || c = '\n' || c = '\r'

/-- Skip JSON whitespace. -/
def skipWs (cs : List Char) : List Char :=
  cs.dropWhile jsonWsB

/-- Hexadecimal digit value, if any. -/
def hexVal (c : Char) : Option Nat :=
  if '0' ≤ c ∧ c ≤ '9' then some (c.toNat - '0'.toNat)
  else if 'a' ≤ c ∧ c ≤ 'f' then some (c.toNat - 'a'.toNat + 10)
  else if 'A' ≤ c ∧ c ≤ 'F' then some (c.toNat - 'A'.toNat + 10)
  else none

/-- Decimal digit test (ASCII, as in the JSON grammar). -/
def isDigitB (c : Char) : Bool :=
  '0' ≤ c && c ≤ '9'

/-- `dict[key] = value` on an insertion-ordered association list: an
existing key keeps its position and takes the new value, a new key is
appended (CPython `dict` semantics, giving last-duplicate-wins for JSON
object members). -/
def objInsert : List (String × JsonVal) → String → JsonVal → List (String × JsonVal)
  | [], k, v => [(k, v)]
  | (k', v') :: rest, k, v =>
    if k' = k then (k', v) :: rest else (k', v') :: objInsert rest k v

/-- Body of a JSON string literal, called just after the opening quote.
Returns the decoded content and the remainder after the closing quote.
Strict mode: raw control characters (code point < 0x20) are rejected;
`\uXXXX` escapes are decoded, with surrogate pairs combined (a lone
surrogate, not a Unicode scalar value, degrades to `Char.ofNat`'s default). -/
def parseStrBody : Nat → List Char → Option (List Char × List Char)
  | 0, _ => none
  | _ + 1, [] => none
  | _ + 1, '"' :: rest => some ([], rest)
  | fuel + 1, '\\' :: esc =>
    match esc with
    | '"' :: rest => (parseStrBody fuel rest).map (fun (s, r) => ('"' :: s, r))
    | '\\' :: rest => (parseStrBody fuel rest).map (fun (s, r) => ('\\' :: s, r))
    | '/' :: rest => (parseStrBody fuel rest).map (fun (s, r) => ('/' :: s, r))
    | 'b' :: rest => (parseStrBody fuel rest).map (fun (s, r) => ('\x08' :: s, r))
    | 'f' :: rest => (parseStrBody fuel rest).map (fun (s, r) => ('\x0c' :: s, r))
    | 'n' :: rest => (parseStrBody fuel rest).map (fun (s, r) => ('\n' :: s, r))
    | 'r' :: rest => (parseStrBody fuel rest).map (fun (s, r) => ('\r' :: s, r))
    | 't' :: rest => (parseStrBody fuel rest).map (fun (s, r) => ('\t' :: s, r))
    | 'u' :: h1 :: h2 :: h3 :: h4 :: '\\' :: 'u' :: g1 :: g2 :: g3 :: g4 :: rest' =>
      match hexVal h1, hexVal h2, hexVal h3, hexVal h4 with
      | some a, some b, some c, some d =>
        let n := ((a * 16 + b) * 16 + c) * 16 + d
        match hexVal g1, hexVal g2, hexVal g3, hexVal g4 with
        | some a', some b', some c', some d' =>
          let m := ((a' * 16 + b') * 16 + c') * 16 + d'
          if 0xd800 ≤ n ∧ n ≤ 0xdbff ∧ 0xdc00 ≤ m ∧ m ≤ 0xdfff then
            (parseStrBody fuel rest').map (fun (s, r) =>
              (Char.ofNat (0x10000 + (n - 0xd800) * 0x400 + (m - 0xdc00)) :: s, r))
          else
            -- not a surrogate pair: decode the first escape alone and
            -- continue scanning from the second escape
            (parseStrBody fuel ('\\' :: 'u' :: g1 :: g2 :: g3 :: g4 :: rest')).map
              (fun (s, r) => (Char.ofNat n :: s, r))
        | _, _, _, _ =>
          (parseStrBody fuel ('\\' :: 'u' :: g1 :: g2 :: g3 :: g4 :: rest')).map
            (fun (s, r) => (Char.ofNat n :: s, r))
      | _, _, _, _ => none
    | 'u' :: h1 :: h2 :: h3 :: h4 :: rest =>
      match hexVal h1, hexVal h2, hexVal h3, hexVal h4 with
      | some a, some b, some c, some d =>
        (parseStrBody fuel rest).map (fun (s, r) =>
          (Char.ofNat (((a * 16 + b) * 16 + c) * 16 + d) :: s, r))
      | _, _, _, _ => none
    | _ => none
  | fuel + 1, c :: rest =>
    if c.toNat < 0x20 then none
    else (parseStrBody fuel rest).map (fun (s, r) => (c :: s, r))

/-- The JSON number lexeme at the head of the input
(`-? (0 | [1-9][0-9]*) (\.[0-9]+)? ([eE][-+]?[0-9]+)?`), with the
remainder; `none` when the head is not a number. -/
def parseNumLex (cs : List Char) : Option (List Char × List Char) :=
  let (sign, cs1) :=
    match cs with
    | '-' :: rest => (['-'], rest)
    | _ => (([] : List Char), cs)
  match cs1 with
  | '0' :: rest => some (sign ++ ['0'], rest) |>.map (fun (lex, r) => fracExp lex r)
  | c :: _ =>
    if isDigitB c ∧ c ≠ '0' then
      let ds := cs1.takeWhile isDigitB
      let r := cs1.dropWhile isDigitB
      some (fracExp (sign ++ ds) r)
    else none
  | [] => none
where
  /-- Extend an integer lexeme with optional fraction and exponent. -/
  fracExp (lex : List Char) (r : List Char) : List Char × List Char :=
    let (lex1, r1) :=
      match r with
      | '.' :: d :: _ =>
        if isDigitB d then
          (lex ++ '.' :: (r.drop 1).takeWhile isDigitB, (r.drop 1).dropWhile isDigitB)
        else (lex, r)
      | _ => (lex, r)
    match r1 with
    | e :: rest2 =>
      if e = 'e' ∨ e = 'E' then
        let (sgn, r3) :=
          match rest2 with
          | '+' :: r3 => (['+'], r3)
          | '-' :: r3 => (['-'], r3)
          | _ => (([] : List Char), rest2)
        match r3 with
        | d :: _ =>
          if isDigitB d then
            (lex1 ++ e :: sgn ++ r3.takeWhile isDigitB, r3.dropWhile isDigitB)
          else (lex1, r1)
        | [] => (lex1, r1)
      else (lex1, r1)
    | [] => (lex1, r1)

mutual

/-- One JSON value at the head of the input (whitespace already skipped),
with the remainder.  Fueled recursion; `jsonLoads` supplies ample fuel. -/
def parseVal : Nat → List Char → Option (JsonVal × List Char)
  | 0, _ => none
  | fuel + 1, cs =>
    match cs with
    | [] => none
    | '"' :: rest =>
      (parseStrBody (rest.length + 1) rest).map (fun (s, r) => (JsonVal.str ⟨s⟩, r))
    | '{' :: rest =>
      match skipWs rest with
      | '}' :: r => some (JsonVal.obj [], r)
      | cs' => parseMembers fuel cs' []
    | '[' :: rest =>
      match skipWs rest with
      | ']' :: r => some (JsonVal.arr [], r)
      | cs' => parseElems fuel cs' []
    | 't' :: 'r' :: 'u' :: 'e' :: rest => some (JsonVal.bool true, rest)
    | 'f' :: 'a' :: 'l' :: 's' :: 'e' :: rest => some (JsonVal.bool false, rest)
    | 'n' :: 'u' :: 'l' :: 'l' :: rest => some (JsonVal.null, rest)
    | 'N' :: 'a' :: 'N' :: rest => some (JsonVal.num "NaN", rest)
    | 'I' :: 'n' :: 'f' :: 'i' :: 'n' :: 'i' :: 't' :: 'y' :: rest =>
      some (JsonVal.num "Infinity", rest)
    | c :: _ =>
      if c = '-' ∨ isDigitB c then
        match parseNumLex cs with
        | some (lex, r) => some (JsonVal.num ⟨lex⟩, r)
        | none =>
          match cs with
          | '-' :: 'I' :: 'n' :: 'f' :: 'i' :: 'n' :: 'i' :: 't' :: 'y' :: rest =>
            some (JsonVal.num "-Infinity", rest)
          | _ => none
      else none

/-- Object members: `"key" : value (, "key" : value)* }`, accumulating
into an insertion-ordered association list. -/
def parseMembers : Nat → List Char → List (String × JsonVal) →
    Option (JsonVal × List Char)
  | 0, _, _ => none
  | fuel + 1, cs, acc =>
    match cs with
    | '"' :: rest =>
      match parseStrBody (rest.length + 1) rest with
      | none => none
      | some (k, r1) =>
        match skipWs r1 with
        | ':' :: r2 =>
          match parseVal fuel (skipWs r2) with
          | none => none
          | some (v, r3) =>
            let acc' := objInsert acc ⟨k⟩ v
            match skipWs r3 with
            | ',' :: r4 => parseMembers fuel (skipWs r4) acc'
            | '}' :: r4 => some (JsonVal.obj acc', r4)
            | _ => none
        | _ => none
    | _ => none

/-- Array elements: `value (, value)* ]`. -/
def parseElems : Nat → List Char → List JsonVal → Option (JsonVal × List Char)
  | 0, _, _ => none
  | fuel + 1, cs, acc =>
    match parseVal fuel cs with
    | none => none
    | some (v, r1) =>
      match skipWs r1 with
      | ',' :: r2 => parseElems fuel (skipWs r2) (acc ++ [v])
      | ']' :: r2 => some (JsonVal.arr (acc ++ [v]), r2)
      | _ => none

end

/-- Python `json.loads`: parse one JSON document, allowing surrounding
JSON whitespace; trailing data is an error (`none` models
`json.JSONDecodeError`). -/
def jsonLoads (s : String) : Option JsonVal :=
  match parseVal (2 * s.data.length + 4) (skipWs s.data) with
  | some (v, rest) => if skipWs rest = [] then some v else none
  | none => none

/-!
## `_extract_json` (llm_router.py lines 10-27)

The two regular expressions are embedded as direct scanners with Python
`re.search` semantics (leftmost match; the fixed patterns make the
backtracking order deterministic):

* `` ```(?:json)?\s*\n?(.*?)``` `` with `re.DOTALL`: at the leftmost
  triple-backtick, greedily consume an optional literal `json` tag and any
  whitespace (none of which can contain a backtick, so greediness never
  skips a closing fence), then the lazy group runs to the *next*
  triple-backtick.  If no closing fence follows, the search resumes one
  character further right.
* `\{.*\}` with `re.DOTALL`: greedy, so it spans from the first `{` to the
  last `}` of the text (when the last `}` lies after the first `{`).
-/

/-- First occurrence of ```` ``` ```` in the input: the characters before
it, or `none` when absent (the lazy group of the fence pattern). -/
def fenceClose : List Char → Option (List Char)
  | [] => none
  | c :: rest =>
    if ['`', '`', '`'].isPrefixOf (c :: rest) then some []
    else (fenceClose rest).map (c :: ·)

/-- Try the fence pattern anchored at the head of the input: returns the
raw captured group of `` ```(?:json)?\s*\n?(.*?)``` ``. -/
def fenceAt (cs : List Char) : Option (List Char) :=
  if ['`', '`', '`'].isPrefixOf cs then
    let r1 := cs.drop 3
    let r2 := if ['j', 's', 'o', 'n'].isPrefixOf r1 then r1.drop 4 else r1
    fenceClose (r2.dropWhile pyWsB)
  else none

/-- `re.search` for the fence pattern: try each start position left to
right. -/
def fenceSearch : List Char → Option (List Char)
  | [] => none
  | c :: rest =>
    match fenceAt (c :: rest) with
    | some g => some g
    | none => fenceSearch rest

/-- `re.search(r"\{.*\}", text, re.DOTALL)`: the span from the first `{`
to the last `}`, when the latter comes after the former. -/
def braceSpan (cs : List Char) : Option (List Char) :=
  let fromBrace := cs.dropWhile (· ≠ '{')
  match fromBrace with
  | [] => none
  | _ :: _ =>
    let revTail := fromBrace.reverse.dropWhile (· ≠ '}')
    match revTail with
    | [] => none
    | _ :: _ => some revTail.reverse

/-- Failures of `_extract_json`: `ValueError("Empty response from LLM")`
and `ValueError("Could not extract JSON from: " + text[:200])`. -/
inductive ExtractErr where
  | empty : ExtractErr
  | unparseable : String → ExtractErr
deriving DecidableEq, Repr

/-- The working text of `_extract_json` after its fence step: the source
strips the input, then — when the fence pattern matches — rebinds `text`
to the stripped captured group. -/
def workingText (s : String) : List Char :=
  match fenceSearch (pyStrip s).data with
  | some g => pyStripL g
  | none => (pyStrip s).data

/-- `_extract_json` (llm_router.py lines 10-27): reject empty/whitespace
input (`if not text or not text.strip()`); strip; replace the text by the
(stripped) fence interior when a fenced block is present; parse as JSON;
on failure parse the first-to-last brace span of that same working text;
otherwise raise with a 200-character prefix of the working text. -/
def extract_json (s : String) : Except ExtractErr JsonVal :=
  if s = "" ∨ pyStrip s = "" then .error .empty
  else
    match jsonLoads ⟨workingText s⟩ with
    | some v => .ok v
    | none =>
      match braceSpan (workingText s) with
      | some sub =>
        match jsonLoads ⟨sub⟩ with
        | some v => .ok v
        | none => .error (.unparseable (take200 ⟨workingText s⟩))
      | none => .error (.unparseable (take200 ⟨workingText s⟩))

/-!
## `_fallback_response` (llm_router.py lines 30-37)
-/

/-- Scan for the body of the pattern
`'"response"\s*:\s*"((?:[^"\\]|\\.)*)"'` after the literal `"response"`
key: optional whitespace, a colon, optional whitespace, an opening quote,
then the raw group — units are either a non-quote non-backslash character
or a backslash plus any character — up to the closing quote. -/
def respBody : List Char → Option (List Char)
  | [] => none
  | '"' :: _ => some []
  | '\\' :: c :: rest => (respBody rest).map (fun g => '\\' :: c :: g)
  | '\\' :: [] => none
  | c :: rest => (respBody rest).map (fun g => c :: g)

/-- Try the `"response"` pattern anchored at the head of the input. -/
def respAt (cs : List Char) : Option (List Char) :=
  if ['"', 'r', 'e', 's', 'p', 'o', 'n', 's', 'e', '"'].isPrefixOf cs then
    let r1 := (cs.drop 10).dropWhile pyWsB
    match r1 with
    | ':' :: r2 =>
      match r2.dropWhile pyWsB with
      | '"' :: r3 => respBody r3
      | _ => none
    | _ => none
  else none

/-- `re.search` for the `"response"` key/value pattern. -/
def respSearch : List Char → Option (List Char)
  | [] => none
  | c :: rest =>
    match respAt (c :: rest) with
    | some g => some g
    | none => respSearch rest

/-- Python `str.replace` for a fixed two-character pattern (leftmost,
non-overlapping). -/
def replace2 (p1 p2 : Char) (rep : List Char) : List Char → List Char
  | [] => []
  | [c] => [c]
  | a :: b :: rest =>
    if a = p1 ∧ b = p2 then rep ++ replace2 p1 p2 rep rest
    else a :: replace2 p1 p2 rep (b :: rest)

/-- The `response` text salvaged by `_fallback_response`: the matched
group with `\n` and `\"` unescaped (in that order), else the raw text. -/
def fallbackText (raw : String) : String :=
  match respSearch raw.data with
  | some g => ⟨replace2 '\\' '"' ['"'] (replace2 '\\' 'n' ['\n'] g)⟩
  | none => raw

/-- The module-level `_FALLBACK` dict (llm_router.py line 30). -/
def FALLBACK : List (String × JsonVal) :=
  [("response", .str ""),
   ("topic", .obj [("name", .str ""), ("matchedExistingId", .null),
                   ("confidence", .num "0")]),
   ("concepts", .arr [])]

/-- `{**d, k: v}`: Python dict-literal merge — an existing key keeps its
position and takes the new value. -/
def dictSet : List (String × JsonVal) → String → JsonVal → List (String × JsonVal)
  | [], k, v => [(k, v)]
  | (k', v') :: rest, k, v =>
    if k' = k then (k', v) :: rest else (k', v') :: dictSet rest k v

/-- `_fallback_response` (llm_router.py lines 33-37):
`{**_FALLBACK, "response": text}`. -/
def fallback_response (raw : String) : JsonVal :=
  .obj (dictSet FALLBACK "response" (.str (fallbackText raw)))

/-!
## Routing (llm_router.py lines 40-47, 105-136)
-/

/-- llm_router.py line 40. -/
def DEFAULT_MODEL : String := "gemini-2.5-flash"

/-- Python `str.startswith`. -/
def pyStartsWith (s pre : String) : Bool :=
  pre.data.isPrefixOf s.data

/-- `LLMRouter._resolve_provider` (lines 109-116): prefix first, then the
router's configured provider verbatim (the source's final two branches
both return `self.provider`). -/
def resolve_provider (selfProvider : String) (model : String) : String :=
  if pyStartsWith model "gpt-" then "openai"
  else if pyStartsWith model "gemini-" then "gemini"
  else selfProvider

/-- The routing decision made by `LLMRouter.chat` (lines 120-136): which
provider branch is dispatched, or the `ValueError("Cannot route model:
...")` raised when the resolved provider is neither `"openai"` nor
`"gemini"`.  Line 129, `model = model or DEFAULT_MODEL`, replaces every
*falsy* model — `None` and the empty string alike — by the default model
before any prefix is inspected. -/
def chatDispatch (selfProvider : String) (model : Option String) :
    Except String String :=
  let m := match model with
    | none => DEFAULT_MODEL
    | some s => if s = "" then DEFAULT_MODEL else s
  let p := resolve_provider selfProvider m
  if p = "openai" then .ok "openai"
  else if p = "gemini" then .ok "gemini"
  else .error ("Cannot route model: " ++ m)

/-!
## Request builders (llm_router.py lines 50-67, 87-102)

A `Msg` is one `{role, content}` turn; an `Attachment` is one
`{mimeType?, data}` mapping, with `mimeType = none` for an absent key and
`data` carried as the base64 payload string (the Gemini builder
base64-decodes it before wrapping; the decoded bytes are opaque to every
property below, so parts carry the payload string).  An absent or `None`
attachment list and an empty one behave identically (`if attachments`),
so both are `[]`.
-/

structure Msg where
  role : String
  content : String
deriving DecidableEq, Repr

structure Attachment where
  mimeType : Option String
  data : String
deriving DecidableEq, Repr

/-- One Gemini `types.Part`. -/
inductive GPart where
  | text : String → GPart
  | inlineData : (dataB64 : String) → (mimeType : String) → GPart
deriving DecidableEq, Repr

/-- One Gemini `types.Content`. -/
structure GContent where
  role : String
  parts : List GPart
deriving DecidableEq, Repr

/-- `_build_gemini_contents` (lines 50-67).  The enumerate-based test
`i == len(messages) - 1` holds exactly at the turn whose tail is empty, so
the builder recurses structurally. -/
def build_gemini_contents (atts : List Attachment) : List Msg → List GContent
  | [] => []
  | m :: ms =>
    let role := if m.role = "user" then "user" else "model"
    let base := [GPart.text m.content]
    let parts :=
      if atts ≠ [] ∧ ms = [] ∧ role = "user" then
        base ++ atts.map (fun a => GPart.inlineData a.data (a.mimeType.getD "image/jpeg"))
      else base
    ⟨role, parts⟩ :: build_gemini_contents atts ms

/-- One part of an OpenAI multimodal message. -/
inductive OPart where
  | text : String → OPart
  | imageUrl : String → OPart
deriving DecidableEq, Repr

/-- One OpenAI chat message: a plain `{role, content}` or a
`{role, content: [parts]}` multimodal message. -/
inductive OMsg where
  | plain : (role : String) → (content : String) → OMsg
  | multi : (role : String) → (parts : List OPart) → OMsg
deriving DecidableEq, Repr

/-- The attachment loop of `_build_openai_messages` (lines 92-98): only
attachments whose *present* MIME type starts with `image/` become
`image_url` parts (`att.get("mimeType", "")`), as data URLs. -/
def openaiImageParts (atts : List Attachment) : List OPart :=
  atts.filterMap (fun a =>
    if pyStartsWith (a.mimeType.getD "") "image/" then
      some (OPart.imageUrl ("data:" ++ a.mimeType.getD "" ++ ";base64," ++ a.data))
    else none)

/-- The per-turn loop of `_build_openai_messages` (lines 90-101).  The
source guards the multimodal branch with `msg is messages[-1]` (object
identity); over value-level turns this is the positional last-turn test,
which coincides with identity whenever the caller passes distinct turn
objects — the regime of the route layer, which builds each turn dict
freshly from the request JSON. -/
def openaiTurns (atts : List Attachment) : List Msg → List OMsg
  | [] => []
  | m :: ms =>
    (if m.role = "user" ∧ atts ≠ [] ∧ ms = [] then
      OMsg.multi m.role (OPart.text m.content :: openaiImageParts atts)
    else
      OMsg.plain m.role m.content) :: openaiTurns atts ms

/-- `_build_openai_messages` (lines 87-102): a leading synthetic system
turn, then the conversation turns. -/
def build_openai_messages (msgs : List Msg) (systemPrompt : String)
    (atts : List Attachment) : List OMsg :=
  OMsg.plain "system" systemPrompt :: openaiTurns atts msgs

/-!
## The json-mode tails of `_openai_chat` / `_gemini_chat`
(llm_router.py lines 153-159 and 176-182)

Both methods end with the same post-processing of the provider's text
(`content or ""`, modelled by `Option.getD ""` for a `None`/empty text):
in json mode, `_extract_json` under `try`, with `except (ValueError,
json.JSONDecodeError)` — which covers every raise site of
`_extract_json` — substituting `_fallback_response`; otherwise the text
is wrapped as `{"response": content}`.
-/

/-- Tail of `_openai_chat` (lines 153-159). -/
def openai_chat_result (jsonMode : Bool) (rawContent : Option String) : JsonVal :=
  let content := rawContent.getD ""
  if jsonMode then
    match extract_json content with
    | .ok v => v
    | .error _ => fallback_response content
  else .obj [("response", .str content)]

/-- Tail of `_gemini_chat` (lines 176-182): identical recovery applied to
`response.text or ""`. -/
def gemini_chat_result (jsonMode : Bool) (rawText : Option String) : JsonVal :=
  let content := rawText.getD ""
  if jsonMode then
    match extract_json content with
    | .ok v => v
    | .error _ => fallback_response content
  else .obj [("response", .str content)]

/-!
## `embeddings.py`: cosine similarity and ranking

Vectors are `List ℚ` and the float arithmetic of numpy is idealised as
exact real arithmetic (floating-point rounding is outside the model).
`np.linalg.norm` is `Real.sqrt` of the sum of squares and `np.dot` the
pairwise product sum; `np.dot` raises on mismatched lengths, so theorems
about ranking carry an equal-dimension hypothesis marking the domain on
which the source is defined (the spec declares mismatched dimensionality
undefined behaviour).

A candidate's similarity score `dot/(‖a‖·‖b‖)` is represented exactly by
the pair `CosScore` of its rational numerator `dot` and the square
`nsq = ‖a‖²·‖b‖²` of its denominator; `scoreVal` maps the pair to the
real score (`0` when a norm is zero, matching the source's guard), and the
computable comparator `scoreLeB` decides `scoreVal`-order by
cross-multiplication, so the sort over scores is executable.
-/

/-- Σ xᵢ² (the square of `np.linalg.norm`). -/
def normSq (v : List ℚ) : ℚ :=
  (v.map (fun x => x * x)).sum

/-- `np.dot` on equal-length vectors (pairwise product sum). -/
def dotQ (a b : List ℚ) : ℚ :=
  (List.zipWith (· * ·) a b).sum

/-- Exact representation of a cosine-similarity value: numerator and
squared denominator. -/
structure CosScore where
  dot : ℚ
  nsq : ℚ
deriving DecidableEq, Repr, Inhabited

/-- The score of comparing vectors `a` and `b`. -/
def cosineScore (a b : List ℚ) : CosScore :=
  ⟨dotQ a b, normSq a * normSq b⟩

/-- The real value a `CosScore` denotes (`0` when the squared denominator
is zero — and for a negative one, which `cosineScore` never produces). -/
noncomputable def scoreVal (s : CosScore) : ℝ :=
  (s.dot : ℝ) / Real.sqrt (s.nsq : ℝ)

/-- `cosine_similarity` (embeddings.py lines 39-47), over exact reals:
`dot/(‖a‖·‖b‖)` guarded to `0.0` when either norm is zero. -/
noncomputable def cosine_similarity (a b : List ℚ) : ℝ :=
  let normA := Real.sqrt ((normSq a : ℚ) : ℝ)
  let normB := Real.sqrt ((normSq b : ℚ) : ℝ)
  if normA = 0 ∨ normB = 0 then 0
  else ((dotQ a b : ℚ) : ℝ) / (normA * normB)

/-- Computable comparison of two `CosScore`s in `scoreVal`-order, by sign
analysis and cross-multiplied squares. -/
def scoreLeB (s t : CosScore) : Bool :=
  if s.nsq ≤ 0 then (if t.nsq ≤ 0 then true else decide ((0 : ℚ) ≤ t.dot))
  else if t.nsq ≤ 0 then decide (s.dot ≤ (0 : ℚ))
  else if s.dot ≤ 0 then
    (if (0 : ℚ) ≤ t.dot then true
     else decide (t.dot ^ 2 * s.nsq ≤ s.dot ^ 2 * t.nsq))
  else
    (if t.dot ≤ 0 then false
     else decide (s.dot ^ 2 * t.nsq ≤ t.dot ^ 2 * s.nsq))

/-- Equality of denoted scores, computably. -/
def scoreEqB (s t : CosScore) : Bool :=
  scoreLeB s t && scoreLeB t s

lemma normSq_nonneg (v : List ℚ) : 0 ≤ normSq v := by
  induction v with
  | nil => simp [normSq]
  | cons x xs ih =>
    simp only [normSq, List.map_cons, List.sum_cons]
    exact add_nonneg (mul_self_nonneg x) ih

lemma scoreVal_of_nsq_nonpos {s : CosScore} (h : s.nsq ≤ 0) : scoreVal s = 0 := by
  unfold scoreVal
  rw [Real.sqrt_eq_zero'.mpr (by exact_mod_cast h), div_zero]

lemma sqrt_cast_pos {p : ℚ} (h : 0 < p) : 0 < Real.sqrt (p : ℝ) :=
  Real.sqrt_pos.mpr (by exact_mod_cast h)

lemma real_sq_le_iff {x y : ℝ} (hx : 0 ≤ x) (hy : 0 ≤ y) : x ≤ y ↔ x ^ 2 ≤ y ^ 2 :=
  (pow_le_pow_iff_left₀ hx hy two_ne_zero).symm

/-- The computable comparator decides exactly the order of denoted real
scores. -/
lemma scoreLeB_iff (s t : CosScore) :
    scoreLeB s t = true ↔ scoreVal s ≤ scoreVal t := by
  obtain ⟨a, p⟩ := s
  obtain ⟨b, q⟩ := t
  unfold scoreLeB
  dsimp only
  split_ifs with h1 h2 h3 h4 h5 h6
  -- case p ≤ 0, q ≤ 0
  · simp [scoreVal_of_nsq_nonpos (s := ⟨a, p⟩) h1,
      scoreVal_of_nsq_nonpos (s := ⟨b, q⟩) h2]
  -- case p ≤ 0, q > 0
  · have hsq := sqrt_cast_pos (not_le.mp h2)
    rw [decide_eq_true_eq, scoreVal_of_nsq_nonpos (s := ⟨a, p⟩) h1]
    unfold scoreVal
    rw [le_div_iff₀ hsq, zero_mul]
    exact ⟨fun h => by exact_mod_cast h, fun h => by exact_mod_cast h⟩
  -- case p > 0, q ≤ 0
  · have hsp := sqrt_cast_pos (not_le.mp h1)
    rw [decide_eq_true_eq, scoreVal_of_nsq_nonpos (s := ⟨b, q⟩) h3]
    unfold scoreVal
    rw [div_le_iff₀ hsp, zero_mul]
    exact ⟨fun h => by exact_mod_cast h, fun h => by exact_mod_cast h⟩
  -- cases p > 0, q > 0
  all_goals have hsp := sqrt_cast_pos (not_le.mp h1)
  all_goals have hsq := sqrt_cast_pos (not_le.mp h3)
  all_goals unfold scoreVal
  all_goals rw [div_le_div_iff₀ hsp hsq]
  all_goals dsimp only
  all_goals have sp2 : Real.sqrt ((p : ℚ) : ℝ) ^ 2 = ((p : ℚ) : ℝ) :=
    Real.sq_sqrt (by exact_mod_cast (not_le.mp h1).le)
  all_goals have sq2 : Real.sqrt ((q : ℚ) : ℝ) ^ 2 = ((q : ℚ) : ℝ) :=
    Real.sq_sqrt (by exact_mod_cast (not_le.mp h3).le)
  -- a ≤ 0 ≤ b: comparator true, the sides have opposite signs
  · have ha : ((a : ℚ) : ℝ) ≤ 0 := by exact_mod_cast h4
    have hb : (0 : ℝ) ≤ ((b : ℚ) : ℝ) := by exact_mod_cast h5
    have hL : ((a : ℚ) : ℝ) * Real.sqrt ((q : ℚ) : ℝ) ≤ 0 :=
      mul_nonpos_iff.mpr (Or.inr ⟨ha, hsq.le⟩)
    have hR : (0 : ℝ) ≤ ((b : ℚ) : ℝ) * Real.sqrt ((p : ℚ) : ℝ) :=
      mul_nonneg hb hsp.le
    exact iff_of_true rfl (hL.trans hR)
  -- a ≤ 0, b < 0: compare the squares of the negated sides
  · have ha : ((a : ℚ) : ℝ) ≤ 0 := by exact_mod_cast h4
    have hb : ((b : ℚ) : ℝ) < 0 := by exact_mod_cast (not_le.mp h5)
    rw [decide_eq_true_eq]
    have hL : ((a : ℚ) : ℝ) * Real.sqrt ((q : ℚ) : ℝ) ≤ 0 :=
      mul_nonpos_iff.mpr (Or.inr ⟨ha, hsq.le⟩)
    have hR : ((b : ℚ) : ℝ) * Real.sqrt ((p : ℚ) : ℝ) ≤ 0 :=
      mul_nonpos_iff.mpr (Or.inr ⟨hb.le, hsp.le⟩)
    rw [show (((a : ℚ) : ℝ) * Real.sqrt ((q : ℚ) : ℝ) ≤
          ((b : ℚ) : ℝ) * Real.sqrt ((p : ℚ) : ℝ)) ↔
        (-(((b : ℚ) : ℝ) * Real.sqrt ((p : ℚ) : ℝ)) ≤
          -(((a : ℚ) : ℝ) * Real.sqrt ((q : ℚ) : ℝ))) from (neg_le_neg_iff).symm,
      real_sq_le_iff (neg_nonneg.mpr hR) (neg_nonneg.mpr hL), neg_sq, neg_sq,
      mul_pow, mul_pow, sp2, sq2]
    exact ⟨fun h => by exact_mod_cast h, fun h => by exact_mod_cast h⟩
  -- a > 0, b ≤ 0: comparator false, the sides have opposite strict signs
  · have ha : (0 : ℝ) < ((a : ℚ) : ℝ) := by exact_mod_cast not_le.mp h4
    have hb : ((b : ℚ) : ℝ) ≤ 0 := by exact_mod_cast h6
    have hL : (0 : ℝ) < ((a : ℚ) : ℝ) * Real.sqrt ((q : ℚ) : ℝ) := mul_pos ha hsq
    have hR : ((b : ℚ) : ℝ) * Real.sqrt ((p : ℚ) : ℝ) ≤ 0 :=
      mul_nonpos_iff.mpr (Or.inr ⟨hb, hsp.le⟩)
    exact iff_of_false (by simp) (not_le.mpr (lt_of_le_of_lt hR hL))
  -- a > 0, b > 0: compare the squares
  · have ha : (0 : ℝ) < ((a : ℚ) : ℝ) := by exact_mod_cast not_le.mp h4
    have hb : (0 : ℝ) < ((b : ℚ) : ℝ) := by exact_mod_cast not_le.mp h6
    rw [decide_eq_true_eq,
      real_sq_le_iff (mul_nonneg ha.le hsq.le) (mul_nonneg hb.le hsp.le),
      mul_pow, mul_pow, sp2, sq2]
    exact ⟨fun h => by exact_mod_cast h, fun h => by exact_mod_cast h⟩

lemma scoreEqB_iff (s t : CosScore) :
    scoreEqB s t = true ↔ scoreVal s = scoreVal t := by
  unfold scoreEqB
  rw [Bool.and_eq_true, scoreLeB_iff, scoreLeB_iff]
  exact ⟨fun h => le_antisymm h.1 h.2, fun h => ⟨h.le, h.ge⟩⟩

/-- The exact score of `cosineScore` denotes the value the source's
`cosine_similarity` computes. -/
lemma scoreVal_cosineScore (a b : List ℚ) :
    scoreVal (cosineScore a b) = cosine_similarity a b := by
  unfold scoreVal cosineScore cosine_similarity
  dsimp only
  rcases eq_or_lt_of_le (normSq_nonneg a) with hA | hA
  · have h0 : (((normSq a * normSq b : ℚ)) : ℝ) = 0 := by
      rw [← hA]; push_cast; ring
    rw [h0, Real.sqrt_zero, div_zero]
    rw [if_pos (Or.inl (by rw [← hA]; simp))]
  · rcases eq_or_lt_of_le (normSq_nonneg b) with hB | hB
    · have h0 : (((normSq a * normSq b : ℚ)) : ℝ) = 0 := by
        rw [← hB]; push_cast; ring
      rw [h0, Real.sqrt_zero, div_zero]
      rw [if_pos (Or.inr (by rw [← hB]; simp))]
    · have hA' : (0 : ℝ) < ((normSq a : ℚ) : ℝ) := by exact_mod_cast hA
      have hB' : (0 : ℝ) < ((normSq b : ℚ) : ℝ) := by exact_mod_cast hB
      rw [if_neg]
      · congr 1
        push_cast
        rw [Real.sqrt_mul hA'.le]
      · push_neg
        exact ⟨ne_of_gt (Real.sqrt_pos.mpr hA'), ne_of_gt (Real.sqrt_pos.mpr hB')⟩

/-!
## `rank_by_similarity` (embeddings.py lines 50-67)

A candidate is a caller-supplied mapping: an optional `embedding` field
(`none` for an absent or `None` value), an optional `score` field — absent
on input, present on output, overwritten if already present (`{**candidate,
"score": score}`) — and an opaque payload standing for every other key.

The loop `if not emb: continue` keeps a candidate exactly when its
embedding is present and non-empty; kept candidates get a fresh copy with
the score.  Python's `list.sort(key=..., reverse=True)` is a stable sort,
descending in key order with ties kept in pre-sort order, which is exactly
`List.insertionSort` with the relation "my score is at least yours".
-/

structure Cand where
  embedding : Option (List ℚ)
  score : Option CosScore
  payload : List (String × String)
deriving DecidableEq, Repr, Inhabited

/-- `emb = candidate.get("embedding"); if not emb: continue` — the
embedding that survives the falsiness filter. -/
def keptEmb (c : Cand) : Option (List ℚ) :=
  match c.embedding with
  | none => none
  | some e => if e = [] then none else some e

/-- `{**candidate, "score": score}`: a fresh mapping with the score field
set. -/
def withScore (q : List ℚ) (c : Cand) (e : List ℚ) : Cand :=
  { c with score := some (cosineScore q e) }

/-- The sort key `lambda x: x["score"]` (every scored candidate carries a
score; the default is never read by `rank_by_similarity`). -/
def scoreKey (c : Cand) : CosScore :=
  c.score.getD ⟨0, 0⟩

/-- `x` may precede `y` in the descending sort: `y`'s score is at most
`x`'s. -/
def candLe (x y : Cand) : Prop :=
  scoreLeB (scoreKey y) (scoreKey x) = true

instance : DecidableRel candLe := fun x y =>
  inferInstanceAs (Decidable (_ = true))

instance : IsTotal Cand candLe :=
  ⟨fun x y => by
    unfold candLe
    rw [scoreLeB_iff, scoreLeB_iff]
    exact (le_total (scoreVal (scoreKey y)) (scoreVal (scoreKey x)))⟩

instance : IsTrans Cand candLe :=
  ⟨fun x y z hxy hyz => by
    unfold candLe at *
    rw [scoreLeB_iff] at *
    exact le_trans hyz hxy⟩

/-- `rank_by_similarity` (embeddings.py lines 50-67): filter out falsy
embeddings, score the rest against the query, sort by score descending
(stable). -/
def rank_by_similarity (q : List ℚ) (cands : List Cand) : List Cand :=
  let results := cands.filterMap (fun c => (keptEmb c).map (withScore q c))
  results.insertionSort candLe

/-!
### Stability of the sort

For a predicate that selects one score-equivalence class, sorting does not
reorder: the filtered sublist is unchanged.
-/

lemma filter_orderedInsert_pos {α : Type} (r : α → α → Prop) [DecidableRel r]
    (p : α → Bool) (x : α) (l : List α) (hpx : p x = true)
    (hcl : ∀ b, p b = true → r x b) :
    (l.orderedInsert r x).filter p = x :: l.filter p := by
  induction l with
  | nil => simp [List.orderedInsert, hpx]
  | cons b l ih =>
    by_cases hr : r x b
    · simp [List.orderedInsert, hr, List.filter_cons, hpx]
    · have hpb : p b = false := by
        cases hb : p b with
        | true => exact absurd (hcl b hb) hr
        | false => rfl
      simp only [List.orderedInsert, if_neg hr, List.filter_cons, hpb]
      simpa [hpb] using ih

lemma filter_orderedInsert_neg {α : Type} (r : α → α → Prop) [DecidableRel r]
    (p : α → Bool) (x : α) (l : List α) (hpx : p x = false) :
    (l.orderedInsert r x).filter p = l.filter p := by
  induction l with
  | nil => simp [List.orderedInsert, hpx]
  | cons b l ih =>
    by_cases hr : r x b
    · simp [List.orderedInsert, hr, List.filter_cons, hpx]
    · simp only [List.orderedInsert, if_neg hr, List.filter_cons]
      cases hb : p b <;> simp [hb, ih]

/-- Stability: the sublist of any mutually-`r`-related class is untouched
by insertion sort. -/
lemma filter_insertionSort {α : Type} (r : α → α → Prop) [DecidableRel r]
    (p : α → Bool) (hcls : ∀ a b, p a = true → p b = true → r a b) :
    ∀ l : List α, (l.insertionSort r).filter p = l.filter p := by
  intro l
  induction l with
  | nil => rfl
  | cons x l ih =>
    rw [List.insertionSort]
    cases hx : p x with
    | true =>
      rw [filter_orderedInsert_pos r p x _ hx (fun b hb => hcls x b hx hb), ih,
        List.filter_cons, hx]
      simp
    | false =>
      rw [filter_orderedInsert_neg r p x _ hx, ih, List.filter_cons, hx]
      simp

/-!
## A store-level model of `rank_by_similarity` for the purity claim

Freshness and non-mutation are heap properties, so the loop is replayed
over an explicit store: a heap of candidate mappings addressed by index.
Reading `candidate.get("embedding")` is a load, `{**candidate, "score":
score}` allocates a fresh mapping at the end of the heap, and the final
sort reorders the collected references comparing the score fields of the
dicts they point to.  The source never writes to an existing address.
-/

/-- The candidate-scoring loop over an explicit heap: follow each address,
skip falsy embeddings, allocate the scored copy, collect its address. -/
def rankHeapLoop (q : List ℚ) : List Cand → List Nat → List Cand × List Nat
  | heap, [] => (heap, [])
  | heap, a :: rest =>
    match heap[a]? with
    | none => rankHeapLoop q heap rest
    | some c =>
      match keptEmb c with
      | none => rankHeapLoop q heap rest
      | some e =>
        let out := rankHeapLoop q (heap ++ [withScore q c e]) rest
        (out.1, heap.length :: out.2)

/-- The sort key read through an address. -/
def keyAt (h : List Cand) (a : Nat) : Cand :=
  (h[a]?).getD default

/-- Descending score order on addresses, reading the pointed-to dicts. -/
def addrLe (h : List Cand) (x y : Nat) : Prop :=
  candLe (keyAt h x) (keyAt h y)

instance (h : List Cand) : DecidableRel (addrLe h) := fun x y =>
  inferInstanceAs (Decidable (_ = true))

/-- `rank_by_similarity` as a store transformer: the loop, then the
stable descending sort of the collected references. -/
def rankHeap (q : List ℚ) (heap : List Cand) (addrs : List Nat) :
    List Cand × List Nat :=
  let r := rankHeapLoop q heap addrs
  (r.1, r.2.insertionSort (addrLe r.1))

/-- The loop only ever appends to the heap. -/
lemma rankHeapLoop_heap_append (q : List ℚ) :
    ∀ (addrs : List Nat) (heap : List Cand),
      ∃ d, (rankHeapLoop q heap addrs).1 = heap ++ d := by
  intro addrs
  induction addrs with
  | nil => exact fun heap => ⟨[], by simp [rankHeapLoop]⟩
  | cons a rest ih =>
    intro heap
    cases hc : heap[a]? with
    | none => simpa only [rankHeapLoop, hc] using ih heap
    | some c =>
      cases hk : keptEmb c with
      | none => simpa only [rankHeapLoop, hc, hk] using ih heap
      | some e =>
        obtain ⟨d, hd⟩ := ih (heap ++ [withScore q c e])
        exact ⟨[withScore q c e] ++ d, by
          simp only [rankHeapLoop, hc, hk]
          rw [hd, List.append_assoc]⟩

/-- Every collected reference is fresh: at or past the original heap's
end. -/
lemma rankHeapLoop_out_fresh (q : List ℚ) :
    ∀ (addrs : List Nat) (heap : List Cand),
      ∀ a ∈ (rankHeapLoop q heap addrs).2, heap.length ≤ a := by
  intro addrs
  induction addrs with
  | nil => intro heap a ha; simp [rankHeapLoop] at ha
  | cons a0 rest ih =>
    intro heap a ha
    cases hc : heap[a0]? with
    | none =>
      rw [rankHeapLoop, hc] at ha
      exact ih heap a ha
    | some c =>
      cases hk : keptEmb c with
      | none =>
        rw [rankHeapLoop, hc] at ha
        simp only [hk] at ha
        exact ih heap a ha
      | some e =>
        rw [rankHeapLoop, hc] at ha
        simp only [hk, List.mem_cons] at ha
        rcases ha with rfl | ha
        · exact le_refl _
        · have := ih (heap ++ [withScore q c e]) a ha
          simp only [List.length_append, List.length_cons, List.length_nil] at this
          omega

/-- The dict values the loop's references point to, computed directly
from the original heap. -/
def loopVals (q : List ℚ) (heap : List Cand) (addrs : List Nat) : List Cand :=
  addrs.filterMap (fun a => (heap[a]?).bind (fun c => (keptEmb c).map (withScore q c)))

lemma loopVals_congr (q : List ℚ) {h₁ h₂ : List Cand} {addrs : List Nat}
    (hag : ∀ a ∈ addrs, h₁[a]? = h₂[a]?) :
    loopVals q h₁ addrs = loopVals q h₂ addrs :=
  List.filterMap_congr (fun a ha => by rw [hag a ha])

/-- Under valid input references, dereferencing the loop's output against
the loop's final heap yields exactly the scored copies, in input order. -/
lemma rankHeapLoop_vals (q : List ℚ) :
    ∀ (addrs : List Nat) (heap : List Cand),
      (∀ a ∈ addrs, a < heap.length) →
      ((rankHeapLoop q heap addrs).2.map
        (fun a => ((rankHeapLoop q heap addrs).1[a]?).getD default)) =
      loopVals q heap addrs := by
  intro addrs
  induction addrs with
  | nil => intro heap _; rfl
  | cons a0 rest ih =>
    intro heap hv
    have hv0 : a0 < heap.length := hv a0 (List.mem_cons_self a0 rest)
    have hvr : ∀ a ∈ rest, a < heap.length :=
      fun a ha => hv a (List.mem_cons_of_mem a0 ha)
    cases hc : heap[a0]? with
    | none =>
      exact absurd (List.getElem?_eq_some.mpr ⟨hv0, rfl⟩) (by simp [hc])
    | some c =>
      cases hk : keptEmb c with
      | none =>
        rw [rankHeapLoop, loopVals, List.filterMap_cons, hc]
        simp only [hk, Option.some_bind, Option.map_none']
        exact ih heap hvr
      | some e =>
        rw [rankHeapLoop, loopVals, List.filterMap_cons, hc]
        simp only [hk, Option.some_bind, Option.map_some', List.map_cons]
        have hvr' : ∀ a ∈ rest, a < (heap ++ [withScore q c e]).length :=
          fun a ha => by
            have := hvr a ha
            simp only [List.length_append, List.length_cons, List.length_nil]
            omega
        obtain ⟨d, hd⟩ := rankHeapLoop_heap_append q rest (heap ++ [withScore q c e])
        congr 1
        -- head: the fresh address dereferences to the fresh dict
        · rw [hd, List.getElem?_append_left (by
            simp only [List.length_append, List.length_cons, List.length_nil]; omega)]
          rw [List.getElem?_concat_length]
          rfl
        -- tail: induction, then move the reads back to the original heap
        · rw [ih (heap ++ [withScore q c e]) hvr']
          exact loopVals_congr q (fun a ha =>
            List.getElem?_append_left (hvr a ha))

/-!
## Support lemmas for the claims
-/

lemma pyStrip_empty_all_ws {s : String} (h : pyStrip s = "") :
    ∀ c ∈ s.data, pyWsB c = true := by
  intro c hc
  have hl : pyStripL s.data = [] := congrArg String.data h
  unfold pyStripL at hl
  rw [List.reverse_eq_nil_iff, List.dropWhile_eq_nil_iff] at hl
  have hdrop : ∀ x ∈ s.data.dropWhile pyWsB, pyWsB x = true :=
    fun x hx => hl x (List.mem_reverse.mpr hx)
  have := List.takeWhile_append_dropWhile (p := pyWsB) (l := s.data)
  rw [← this] at hc
  rcases List.mem_append.mp hc with h1 | h2
  · exact List.mem_takeWhile_imp h1
  · exact hdrop c h2

lemma respAt_ws_head {c : Char} {rest : List Char} (hc : pyWsB c = true) :
    respAt (c :: rest) = none := by
  have hne : ('"' == c) = false := by
    cases hq : ('"' == c)
    · rfl
    · rw [beq_iff_eq] at hq
      rw [← hq] at hc
      exact absurd hc (by decide)
  unfold respAt
  rw [if_neg (by simp [List.isPrefixOf, hne])]

lemma respSearch_all_ws : ∀ {cs : List Char}, (∀ c ∈ cs, pyWsB c = true) →
    respSearch cs = none := by
  intro cs
  induction cs with
  | nil => intro _; rfl
  | cons c rest ih =>
    intro h
    unfold respSearch
    rw [respAt_ws_head (h c (List.mem_cons_self c rest))]
    exact ih (fun x hx => h x (List.mem_cons_of_mem c hx))

lemma fallbackText_of_all_ws {s : String} (h : pyStrip s = "") :
    fallbackText s = s := by
  unfold fallbackText
  rw [respSearch_all_ws (pyStrip_empty_all_ws h)]

/-- On any extraction failure the recovery result is the claimed shape:
the permissively-salvaged (or raw) response text, an empty unmatched
topic with zero confidence, and no concepts. -/
lemma fallback_response_shape (raw : String) :
    fallback_response raw =
      .obj [("response", .str (fallbackText raw)),
            ("topic", .obj [("name", .str ""), ("matchedExistingId", .null),
                            ("confidence", .num "0")]),
            ("concepts", .arr [])] := by
  simp [fallback_response, dictSet, FALLBACK]

lemma length_filterMap_eq {α β : Type} (f : α → Option β) (l : List α) :
    (l.filterMap f).length = (l.filter (fun a => (f a).isSome)).length := by
  induction l with
  | nil => rfl
  | cons x l ih =>
    rw [List.filterMap_cons, List.filter_cons]
    cases hx : f x with
    | none => simpa [hx] using ih
    | some b => simpa [hx] using ih

lemma keptEmb_eq_some {c : Cand} {e : List ℚ} :
    keptEmb c = some e ↔ c.embedding = some e ∧ e ≠ [] := by
  unfold keptEmb
  cases hc : c.embedding with
  | none => simp
  | some e' =>
    dsimp only
    by_cases he : e' = []
    · subst he
      rw [if_pos rfl]
      constructor
      · intro h
        exact Option.noConfusion h
      · rintro ⟨h1, h2⟩
        exact absurd (Option.some_inj.mp h1).symm h2
    · rw [if_neg he]
      constructor
      · intro h
        exact ⟨h, by rw [← Option.some_inj.mp h]; exact he⟩
      · rintro ⟨h1, _⟩
        exact h1

/-!
## Claim-side definitions for the extraction strategy order

`extract_json_claimed` renders claim C2's wording: strategy (2) parses the
trimmed *whole string* whenever strategy (1) — parsing the fence interior —
fails, and strategy (3) searches the brace span of that same whole string.
`extract_json_amended` renders the corrected wording: once a fence is
present its interior *replaces* the working text, and strategies (2)–(4)
only ever see the working text.
-/

/-- The extraction procedure as claim C2 states it (spec §4.2 wording):
fence interior first; on failure the trimmed whole string; on failure the
whole string's brace span; else fail. -/
def extract_json_claimed (s : String) : Except ExtractErr JsonVal :=
  if s = "" ∨ pyStrip s = "" then .error .empty
  else
    match (fenceSearch (pyStrip s).data).bind (fun g => jsonLoads ⟨pyStripL g⟩) with
    | some v => .ok v
    | none =>
      match jsonLoads (pyStrip s) with
      | some v => .ok v
      | none =>
        match (braceSpan (pyStrip s).data).bind (fun sub => jsonLoads ⟨sub⟩) with
        | some v => .ok v
        | none => .error (.unparseable (take200 (pyStrip s)))

/-- The amended extraction contract: the (trimmed) fence interior, when a
fence is present, becomes the working text, and parsing, brace-span
recovery and the error prefix all apply to the working text only. -/
def extract_json_amended (s : String) : Except ExtractErr JsonVal :=
  if s = "" ∨ pyStrip s = "" then .error .empty
  else
    match jsonLoads ⟨workingText s⟩ with
    | some v => .ok v
    | none =>
      match (braceSpan (workingText s)).bind (fun sub => jsonLoads ⟨sub⟩) with
      | some v => .ok v
      | none => .error (.unparseable (take200 ⟨workingText s⟩))

/-!
## The claims
-/

/-- C1: for every provider response text (the conversation and system
prompt only shape the provider call, not the recovery), a single-shot chat
call with `json_mode=true` never propagates a JSON-parse error: whenever
structured extraction fails, the `except (ValueError, json.JSONDecodeError)`
arm returns the fallback mapping `{response: <text extracted from a
"response" key, else the raw text>, topic: {name: "", matchedExistingId:
null, confidence: 0}, concepts: []}` instead of raising. -/
theorem c1_json_mode_never_raises (raw : Option String) (e : ExtractErr)
    (hfail : extract_json (raw.getD "") = .error e) :
    openai_chat_result true raw =
      .obj [("response", .str (fallbackText (raw.getD ""))),
            ("topic", .obj [("name", .str ""), ("matchedExistingId", .null),
                            ("confidence", .num "0")]),
            ("concepts", .arr [])] := by
  unfold openai_chat_result
  rw [if_pos rfl, hfail]
  exact fallback_response_shape (raw.getD "")

theorem c1_witness :
    extract_json "not json" = .error (.unparseable "not json") ∧
    openai_chat_result true (some "not json") =
      .obj [("response", .str (fallbackText "not json")),
            ("topic", .obj [("name", .str ""), ("matchedExistingId", .null),
                            ("confidence", .num "0")]),
            ("concepts", .arr [])] :=
  ⟨rfl, c1_json_mode_never_raises (some "not json") (.unparseable "not json") rfl⟩

/-- C2 counterexample: on the valid JSON object `{"a": "```b```"}` (braces
elided in this comment) — a string value containing a backtick run — the
fence pattern matches with interior `b`, the source *replaces* the working
text by `b` and fails, while the claimed strategy order (retry the trimmed
whole string after a failed fence parse) succeeds with the parsed object.
So `_extract_json` does not implement the claimed order. -/
theorem c2_counterexample :
    extract_json "\x7b\"a\": \"```b```\"\x7d" = .error (.unparseable "b") ∧
    extract_json_claimed "\x7b\"a\": \"```b```\"\x7d" =
      .ok (.obj [("a", .str "```b```")]) :=
  ⟨rfl, rfl⟩

/-- C2 (amended): for every non-empty, non-whitespace input, extraction
follows the amended strategy order — when a fenced block is present its
trimmed interior replaces the working text, then the working text is
parsed as JSON, then its first-to-last brace span is parsed, and otherwise
the error carries at most a 200-character prefix of the working text. -/
theorem c2_amended_strategy_order (s : String) (h : pyStrip s ≠ "") :
    extract_json s = extract_json_amended s ∧
    (∀ p, extract_json s = .error (.unparseable p) → p.data.length ≤ 200) := by
  have hne : ¬ (s = "" ∨ pyStrip s = "") := by
    rintro (rfl | h2)
    · exact h rfl
    · exact h h2
  constructor
  · unfold extract_json extract_json_amended
    rw [if_neg hne, if_neg hne]
    cases jsonLoads ⟨workingText s⟩ with
    | some v => rfl
    | none =>
      cases braceSpan (workingText s) with
      | none => rfl
      | some sub =>
        cases jsonLoads ⟨sub⟩ with
        | some v => rfl
        | none => rfl
  · intro p hp
    unfold extract_json at hp
    rw [if_neg hne] at hp
    have hlen : ∀ w : List Char, p = take200 ⟨w⟩ → p.data.length ≤ 200 := by
      rintro w rfl
      simpa [take200] using List.length_take_le 200 w
    cases hj : jsonLoads ⟨workingText s⟩ with
    | some v =>
      simp only [hj] at hp
      exact Except.noConfusion hp
    | none =>
      simp only [hj] at hp
      cases hb : braceSpan (workingText s) with
      | none =>
        simp only [hb] at hp
        injection hp with h1
        injection h1 with h2
        exact hlen _ h2.symm
      | some sub =>
        simp only [hb] at hp
        cases hs : jsonLoads ⟨sub⟩ with
        | some v =>
          simp only [hs] at hp
          exact Except.noConfusion hp
        | none =>
          simp only [hs] at hp
          injection hp with h1
          injection h1 with h2
          exact hlen _ h2.symm

theorem c2_witness :
    pyStrip "ignore \x7b\"k\": 1\x7d end" ≠ "" ∧
    extract_json "ignore \x7b\"k\": 1\x7d end" =
      extract_json_amended "ignore \x7b\"k\": 1\x7d end" :=
  ⟨by decide, (c2_amended_strategy_order "ignore \x7b\"k\": 1\x7d end" (by decide)).1⟩

/-- No model identifier starts with both family prefixes: the second
characters differ. -/
lemma not_gpt_and_gemini (m : String) :
    ¬ (pyStartsWith m "gpt-" = true ∧ pyStartsWith m "gemini-" = true) := by
  rintro ⟨h1, h2⟩
  unfold pyStartsWith at h1 h2
  cases hm : m.data with
  | nil =>
    rw [hm] at h1
    exact absurd h1 (by decide)
  | cons c1 rest =>
    cases rest with
    | nil =>
      rw [hm] at h1
      simp [List.isPrefixOf] at h1
    | cons c2 rest2 =>
      rw [hm] at h1 h2
      simp only [List.isPrefixOf, Bool.and_eq_true, beq_iff_eq] at h1 h2
      obtain ⟨-, hp, -⟩ := h1
      obtain ⟨-, he, -⟩ := h2
      rw [← hp] at he
      exact absurd he (by decide)

/-- C3 counterexample: the empty identifier has neither known prefix and
`"anthropic"` is neither `"openai"` nor `"gemini"`, so the claimed
"fails exactly when" biconditional demands an unroutable-model error —
but `chat` first replaces the falsy empty model by the default model
(`model or DEFAULT_MODEL`) and dispatches Gemini successfully. -/
theorem c3_counterexample :
    pyStartsWith "" "gpt-" = false ∧ pyStartsWith "" "gemini-" = false ∧
    ("anthropic" : String) ≠ "openai" ∧ ("anthropic" : String) ≠ "gemini" ∧
    chatDispatch "anthropic" (some "") = .ok "gemini" :=
  ⟨by decide, by decide, by decide, by decide, rfl⟩

/-- C3 (amended): an identifier with the OpenAI-family prefix dispatches
OpenAI and one with the Gemini-family prefix dispatches Gemini, regardless
of the configured default; the resolver maps any other identifier to the
configured default verbatim; a falsy identifier — omitted or empty — is
first replaced by the default model, which routes to Gemini; and `chat`
raises its unroutable-model `ValueError` exactly when the identifier is
non-empty, has neither prefix, and the default is neither `"openai"` nor
`"gemini"`. -/
theorem c3_amended_routing (dflt m : String) :
    (pyStartsWith m "gpt-" = true → chatDispatch dflt (some m) = .ok "openai")
    ∧ (pyStartsWith m "gemini-" = true → chatDispatch dflt (some m) = .ok "gemini")
    ∧ (pyStartsWith m "gpt-" = false → pyStartsWith m "gemini-" = false →
        resolve_provider dflt m = dflt)
    ∧ chatDispatch dflt none = .ok "gemini"
    ∧ chatDispatch dflt (some "") = .ok "gemini"
    ∧ ((∃ e, chatDispatch dflt (some m) = .error e) ↔
        (m ≠ "" ∧ pyStartsWith m "gpt-" = false ∧ pyStartsWith m "gemini-" = false ∧
         dflt ≠ "openai" ∧ dflt ≠ "gemini")) := by
  refine ⟨?_, ?_, ?_, rfl, rfl, ?_⟩
  · intro h
    have hne : m ≠ "" := by
      intro he
      rw [he] at h
      exact absurd h (by decide)
    simp [chatDispatch, resolve_provider, h, hne]
  · intro h
    have hne : m ≠ "" := by
      intro he
      rw [he] at h
      exact absurd h (by decide)
    have hg : pyStartsWith m "gpt-" = false := by
      cases hc : pyStartsWith m "gpt-"
      · rfl
      · exact absurd ⟨hc, h⟩ (not_gpt_and_gemini m)
    simp [chatDispatch, resolve_provider, hg, h, hne]
  · intro h1 h2
    simp [resolve_provider, h1, h2]
  · constructor
    · rintro ⟨e, he⟩
      by_cases hm : m = ""
      · subst hm
        rw [show chatDispatch dflt (some "") = Except.ok "gemini" from rfl] at he
        exact Except.noConfusion he
      · by_cases h1 : pyStartsWith m "gpt-" = true
        · simp [chatDispatch, resolve_provider, h1, hm] at he
        · rw [Bool.not_eq_true] at h1
          by_cases h2 : pyStartsWith m "gemini-" = true
          · simp [chatDispatch, resolve_provider, h1, h2, hm] at he
          · rw [Bool.not_eq_true] at h2
            refine ⟨hm, h1, h2, ?_, ?_⟩
            · intro hd
              simp [chatDispatch, resolve_provider, h1, h2, hd, hm] at he
            · intro hd
              simp [chatDispatch, resolve_provider, h1, h2, hd, hm] at he
    · rintro ⟨h0, h1, h2, h3, h4⟩
      refine ⟨"Cannot route model: " ++ m, ?_⟩
      simp [chatDispatch, resolve_provider, h0, h1, h2, h3, h4]

theorem c3_witness :
    chatDispatch "gemini" (some "gpt-5-mini") = .ok "openai" ∧
    chatDispatch "openai" (some "gemini-2.5-flash") = .ok "gemini" ∧
    resolve_provider "openai" "claude-3" = "openai" ∧
    chatDispatch "anthropic" none = .ok "gemini" ∧
    (∃ e, chatDispatch "anthropic" (some "claude-3") = .error e) :=
  ⟨(c3_amended_routing "gemini" "gpt-5-mini").1 (by decide),
   (c3_amended_routing "openai" "gemini-2.5-flash").2.1 (by decide),
   (c3_amended_routing "openai" "claude-3").2.2.1 (by decide) (by decide),
   (c3_amended_routing "anthropic" "x").2.2.2.1,
   ((c3_amended_routing "anthropic" "claude-3").2.2.2.2.2).mpr
     ⟨by decide, by decide, by decide, by decide, by decide⟩⟩

/-!
## Attachment placement (claims C4, C5)
-/

/-- Does a Gemini part list carry inline binary data? -/
def gHasInline (parts : List GPart) : Bool :=
  parts.any (fun p => match p with | .inlineData _ _ => true | _ => false)

/-- Does an OpenAI message carry an image part? -/
def oHasImage : OMsg → Bool
  | .plain _ _ => false
  | .multi _ parts => parts.any (fun p => match p with | .imageUrl _ => true | _ => false)

/-- The role of an OpenAI message. -/
def oRole : OMsg → String
  | .plain r _ => r
  | .multi r _ => r

lemma build_gemini_dropLast_no_inline (atts : List Attachment) :
    ∀ msgs : List Msg, ∀ g ∈ (build_gemini_contents atts msgs).dropLast,
      gHasInline g.parts = false := by
  intro msgs
  induction msgs with
  | nil => intro g hg; simp [build_gemini_contents] at hg
  | cons m ms ih =>
    intro g hg
    cases hms : ms with
    | nil =>
      subst hms
      simp [build_gemini_contents] at hg
    | cons m2 ms2 =>
      subst hms
      rw [build_gemini_contents, build_gemini_contents] at hg
      rw [List.dropLast_cons₂] at hg
      rcases List.mem_cons.mp hg with rfl | hg'
      · have hcond : ¬ (atts ≠ [] ∧ (m2 :: ms2 : List Msg) = [] ∧
            (if m.role = "user" then "user" else "model") = "user") := by
          rintro ⟨-, h2, -⟩
          exact List.noConfusion h2
        simp only [if_neg hcond]
        rfl
      · exact ih g (by rw [build_gemini_contents]; exact hg')

lemma build_gemini_getLast_inline (atts : List Attachment) :
    ∀ msgs : List Msg, ∀ g, (build_gemini_contents atts msgs).getLast? = some g →
      gHasInline g.parts = true →
      g.role = "user" ∧ msgs.getLast?.map Msg.role = some "user" := by
  intro msgs
  induction msgs with
  | nil => intro g hg _; exact Option.noConfusion hg
  | cons m ms ih =>
    intro g hg hinl
    cases hms : ms with
    | nil =>
      subst hms
      rw [build_gemini_contents, build_gemini_contents] at hg
      rw [List.getLast?_singleton] at hg
      injection hg with hg
      subst hg
      by_cases hcond : (atts ≠ [] ∧ ([] : List Msg) = [] ∧
          (if m.role = "user" then "user" else "model") = "user")
      · have hrole : m.role = "user" := by
          by_cases hr : m.role = "user"
          · exact hr
          · rw [if_neg hr] at hcond
            exact absurd hcond.2.2 (by decide)
        refine ⟨by simp [hrole], ?_⟩
        simp [List.getLast?_singleton, hrole]
      · rw [if_neg hcond] at hinl
        exact absurd hinl (by simp [gHasInline])
    | cons m2 ms2 =>
      subst hms
      rw [build_gemini_contents, build_gemini_contents,
        List.getLast?_cons_cons] at hg
      rw [List.getLast?_cons_cons]
      exact ih g (by rw [build_gemini_contents]; exact hg) hinl

lemma openaiTurns_dropLast_no_image (atts : List Attachment) :
    ∀ msgs : List Msg, ∀ g ∈ (openaiTurns atts msgs).dropLast,
      oHasImage g = false := by
  intro msgs
  induction msgs with
  | nil => intro g hg; simp [openaiTurns] at hg
  | cons m ms ih =>
    intro g hg
    cases hms : ms with
    | nil =>
      subst hms
      simp [openaiTurns] at hg
    | cons m2 ms2 =>
      subst hms
      rw [openaiTurns, openaiTurns, List.dropLast_cons₂] at hg
      rcases List.mem_cons.mp hg with rfl | hg'
      · have hcond : ¬ (m.role = "user" ∧ atts ≠ [] ∧ (m2 :: ms2 : List Msg) = []) := by
          rintro ⟨-, -, h3⟩
          exact List.noConfusion h3
        rw [if_neg hcond]
        rfl
      · exact ih g (by rw [openaiTurns]; exact hg')

lemma openaiTurns_getLast_image (atts : List Attachment) :
    ∀ msgs : List Msg, ∀ g, (openaiTurns atts msgs).getLast? = some g →
      oHasImage g = true →
      oRole g = "user" ∧ msgs.getLast?.map Msg.role = some "user" := by
  intro msgs
  induction msgs with
  | nil => intro g hg _; exact Option.noConfusion hg
  | cons m ms ih =>
    intro g hg himg
    cases hms : ms with
    | nil =>
      subst hms
      rw [openaiTurns, openaiTurns, List.getLast?_singleton] at hg
      injection hg with hg
      subst hg
      by_cases hcond : (m.role = "user" ∧ atts ≠ [] ∧ ([] : List Msg) = [])
      · rw [if_pos hcond]
        exact ⟨by simp [oRole, hcond.1], by simp [List.getLast?_singleton, hcond.1]⟩
      · rw [if_neg hcond] at himg
        exact absurd himg (by simp [oHasImage])
    | cons m2 ms2 =>
      subst hms
      rw [openaiTurns, openaiTurns, List.getLast?_cons_cons] at hg
      rw [List.getLast?_cons_cons]
      exact ih g (by rw [openaiTurns]; exact hg) himg

/-- C4: in both built provider requests, attachment parts appear only on
the last turn, and only when that turn's role is `"user"`; turns earlier
in the history never carry attachment parts. -/
theorem c4_attachments_only_last_user (msgs : List Msg) (sys : String)
    (atts : List Attachment) (hA : atts ≠ []) :
    (∀ g ∈ (build_gemini_contents atts msgs).dropLast, gHasInline g.parts = false)
    ∧ (∀ g, (build_gemini_contents atts msgs).getLast? = some g →
        gHasInline g.parts = true →
        g.role = "user" ∧ msgs.getLast?.map Msg.role = some "user")
    ∧ (∀ g ∈ (build_openai_messages msgs sys atts).dropLast, oHasImage g = false)
    ∧ (∀ g, (build_openai_messages msgs sys atts).getLast? = some g →
        oHasImage g = true →
        oRole g = "user" ∧ msgs.getLast?.map Msg.role = some "user") := by
  refine ⟨build_gemini_dropLast_no_inline atts msgs,
          build_gemini_getLast_inline atts msgs, ?_, ?_⟩
  · intro g hg
    unfold build_openai_messages at hg
    cases hturns : openaiTurns atts msgs with
    | nil =>
      rw [hturns] at hg
      simp at hg
    | cons t ts =>
      rw [hturns, List.dropLast_cons₂] at hg
      rcases List.mem_cons.mp hg with rfl | hg'
      · rfl
      · exact openaiTurns_dropLast_no_image atts msgs g (by rw [hturns]; exact hg')
  · intro g hg himg
    unfold build_openai_messages at hg
    cases hturns : openaiTurns atts msgs with
    | nil =>
      rw [hturns, List.getLast?_singleton] at hg
      injection hg with hg
      subst hg
      exact absurd himg (by simp [oHasImage])
    | cons t ts =>
      rw [hturns, List.getLast?_cons_cons] at hg
      exact openaiTurns_getLast_image atts msgs g (by rw [hturns]; exact hg) himg

theorem c4_witness :
    ((⟨"user", [GPart.text "c", GPart.inlineData "QUJD" "image/png"]⟩ : GContent).role = "user" ∧
      ([⟨"user", "a"⟩, ⟨"assistant", "b"⟩, ⟨"user", "c"⟩] : List Msg).getLast?.map Msg.role =
        some "user") ∧
    oHasImage (OMsg.plain "assistant" "b") = false :=
  ⟨(c4_attachments_only_last_user
      [⟨"user", "a"⟩, ⟨"assistant", "b"⟩, ⟨"user", "c"⟩] "sys"
      [⟨some "image/png", "QUJD"⟩] (by decide)).2.1
      ⟨"user", [GPart.text "c", GPart.inlineData "QUJD" "image/png"]⟩ rfl rfl,
   (c4_attachments_only_last_user
      [⟨"user", "a"⟩, ⟨"assistant", "b"⟩, ⟨"user", "c"⟩] "sys"
      [⟨some "image/png", "QUJD"⟩] (by decide)).2.2.1
      (OMsg.plain "assistant" "b") (by decide)⟩

/-- C5 counterexample: an attachment with an *unspecified* MIME type on
the (single, user) last turn produces no binary part at all in the OpenAI
request — the loop filters on `att.get("mimeType", "").startswith("image/")`
and drops it instead of defaulting to `image/jpeg`.  The Gemini builder,
by contrast, defaults and keeps it.  So "each adapter's built request
contains an inline binary part … defaults to image/jpeg" fails for the
OpenAI adapter. -/
theorem c5_counterexample :
    build_openai_messages [⟨"user", "hi"⟩] "sys" [⟨none, "QUJD"⟩] =
      [OMsg.plain "system" "sys", OMsg.multi "user" [OPart.text "hi"]] ∧
    build_gemini_contents [⟨none, "QUJD"⟩] [⟨"user", "hi"⟩] =
      [⟨"user", [GPart.text "hi", GPart.inlineData "QUJD" "image/jpeg"]⟩] :=
  ⟨rfl, rfl⟩

lemma openaiImageParts_nonimage_empty (atts : List Attachment) :
    openaiImageParts (atts.filter
      (fun a => ! pyStartsWith (a.mimeType.getD "") "image/")) = [] := by
  unfold openaiImageParts
  rw [List.filterMap_eq_nil]
  intro a ha
  have := List.of_mem_filter ha
  rw [Bool.not_eq_true'] at this
  rw [if_neg (by rw [this]; exact Bool.false_ne_true)]

lemma getLast_build_gemini_cons (atts : List Attachment) (m0 m2 : Msg)
    (ms2 : List Msg) :
    (build_gemini_contents atts (m0 :: m2 :: ms2)).getLast? =
      (build_gemini_contents atts (m2 :: ms2)).getLast? := by
  rw [build_gemini_contents, build_gemini_contents]
  rw [List.getLast?_cons_cons]

lemma getLast_openaiTurns_cons (atts : List Attachment) (m0 m2 : Msg)
    (ms2 : List Msg) :
    (openaiTurns atts (m0 :: m2 :: ms2)).getLast? =
      (openaiTurns atts (m2 :: ms2)).getLast? := by
  rw [openaiTurns, openaiTurns]
  rw [List.getLast?_cons_cons]

lemma build_gemini_getLast_user (atts : List Attachment) (hA : atts ≠ []) :
    ∀ (msgs : List Msg) (m : Msg), msgs.getLast? = some m → m.role = "user" →
      (build_gemini_contents atts msgs).getLast? =
        some ⟨"user", GPart.text m.content ::
          atts.map (fun a => GPart.inlineData a.data (a.mimeType.getD "image/jpeg"))⟩ := by
  intro msgs
  induction msgs with
  | nil => intro m hm _; exact Option.noConfusion hm
  | cons m0 ms ih =>
    intro m hm hrole
    cases hms : ms with
    | nil =>
      subst hms
      rw [List.getLast?_singleton] at hm
      injection hm with hm
      subst hm
      simp [build_gemini_contents, List.getLast?_singleton, hrole, hA]
    | cons m2 ms2 =>
      subst hms
      rw [List.getLast?_cons_cons] at hm
      rw [getLast_build_gemini_cons]
      exact ih m hm hrole

lemma openaiTurns_getLast_user (atts : List Attachment) (hA : atts ≠ []) :
    ∀ (msgs : List Msg) (m : Msg), msgs.getLast? = some m → m.role = "user" →
      (openaiTurns atts msgs).getLast? =
        some (OMsg.multi "user" (OPart.text m.content :: openaiImageParts atts)) := by
  intro msgs
  induction msgs with
  | nil => intro m hm _; exact Option.noConfusion hm
  | cons m0 ms ih =>
    intro m hm hrole
    cases hms : ms with
    | nil =>
      subst hms
      rw [List.getLast?_singleton] at hm
      injection hm with hm
      subst hm
      simp [openaiTurns, List.getLast?_singleton, hrole, hA]
    | cons m2 ms2 =>
      subst hms
      rw [List.getLast?_cons_cons] at hm
      rw [getLast_openaiTurns_cons]
      exact ih m hm hrole

/-- C5 (amended): for attachments supplied with a user last turn, the
Gemini request carries one inline binary part per attachment alongside the
text part, with the MIME type defaulting to `image/jpeg` when unspecified;
the OpenAI request carries an inline `image_url` part only for attachments
whose *specified* MIME type starts with `image/` — attachments with an
unspecified or non-image MIME type are dropped, not defaulted. -/
theorem c5_amended_attachment_parts (msgs : List Msg) (sys : String)
    (atts : List Attachment) (m : Msg) (hlast : msgs.getLast? = some m)
    (hrole : m.role = "user") (hA : atts ≠ []) :
    (build_gemini_contents atts msgs).getLast? =
      some ⟨"user", GPart.text m.content ::
        atts.map (fun a => GPart.inlineData a.data (a.mimeType.getD "image/jpeg"))⟩
    ∧ (build_openai_messages msgs sys atts).getLast? =
      some (OMsg.multi "user" (OPart.text m.content :: openaiImageParts atts))
    ∧ openaiImageParts (atts.filter
        (fun a => ! pyStartsWith (a.mimeType.getD "") "image/")) = [] := by
  refine ⟨build_gemini_getLast_user atts hA msgs m hlast hrole, ?_,
    openaiImageParts_nonimage_empty atts⟩
  unfold build_openai_messages
  cases hmsgs : msgs with
  | nil => rw [hmsgs] at hlast; exact Option.noConfusion hlast
  | cons m0 ms =>
    have hturns := openaiTurns_getLast_user atts hA msgs m hlast hrole
    rw [hmsgs] at hturns
    rw [openaiTurns]
    rw [List.getLast?_cons_cons]
    rw [openaiTurns] at hturns
    exact hturns

theorem c5_witness :
    (build_gemini_contents [⟨some "image/png", "QUJD"⟩] [⟨"user", "hi"⟩]).getLast? =
      some ⟨"user", [GPart.text "hi", GPart.inlineData "QUJD" "image/png"]⟩ ∧
    (build_openai_messages [⟨"user", "hi"⟩] "sys" [⟨some "image/png", "QUJD"⟩]).getLast? =
      some (OMsg.multi "user" [OPart.text "hi",
        OPart.imageUrl "data:image/png;base64,QUJD"]) := by
  have h := c5_amended_attachment_parts [⟨"user", "hi"⟩] "sys"
    [⟨some "image/png", "QUJD"⟩] ⟨"user", "hi"⟩ rfl rfl (by decide)
  exact ⟨h.1, h.2.1⟩

/-- C6: `rank_by_similarity` keeps exactly the candidates with a present,
non-empty embedding (falsy embeddings are silently dropped), each output
mapping is the original plus the `score` field set to its exact cosine
similarity against the query, the output is a permutation of the scored
list sorted by score descending with equal-score candidates in their
filtered relative order, and nothing is truncated (the output length is
the number of kept candidates).  The equal-dimension hypothesis marks the
domain on which the source's `np.dot` is defined (the spec declares
mismatched dimensionality undefined behaviour). -/
theorem c6_rank_by_similarity_contract (q : List ℚ) (cands : List Cand)
    (hdim : ∀ c ∈ cands, ∀ e, c.embedding = some e → e ≠ [] → e.length = q.length) :
    List.Perm (rank_by_similarity q cands)
      (cands.filterMap (fun c => (keptEmb c).map (withScore q c)))
    ∧ (∀ c, c ∈ rank_by_similarity q cands ↔
        ∃ c₀ ∈ cands, ∃ e, c₀.embedding = some e ∧ e ≠ [] ∧ c = withScore q c₀ e)
    ∧ (rank_by_similarity q cands).length =
        (cands.filter (fun c => (keptEmb c).isSome)).length
    ∧ List.Pairwise (fun x y => scoreVal (scoreKey y) ≤ scoreVal (scoreKey x))
        (rank_by_similarity q cands)
    ∧ (∀ s0 : CosScore,
        (rank_by_similarity q cands).filter (fun c => scoreEqB (scoreKey c) s0) =
        (cands.filterMap (fun c => (keptEmb c).map (withScore q c))).filter
          (fun c => scoreEqB (scoreKey c) s0))
    ∧ (∀ c ∈ rank_by_similarity q cands, ∃ c₀ e, c₀ ∈ cands ∧ keptEmb c₀ = some e ∧
        c.embedding = c₀.embedding ∧ c.payload = c₀.payload ∧
        c.score = some (cosineScore q e) ∧
        scoreVal (cosineScore q e) = cosine_similarity q e) := by
  have hperm : List.Perm (rank_by_similarity q cands)
      (cands.filterMap (fun c => (keptEmb c).map (withScore q c))) :=
    List.perm_insertionSort candLe _
  have hmem : ∀ c, c ∈ rank_by_similarity q cands ↔
      ∃ c₀ ∈ cands, ∃ e, c₀.embedding = some e ∧ e ≠ [] ∧ c = withScore q c₀ e := by
    intro c
    rw [hperm.mem_iff, List.mem_filterMap]
    constructor
    · rintro ⟨c₀, hc₀, hf⟩
      rw [Option.map_eq_some'] at hf
      obtain ⟨e, hke, hw⟩ := hf
      obtain ⟨h1, h2⟩ := keptEmb_eq_some.mp hke
      exact ⟨c₀, hc₀, e, h1, h2, hw.symm⟩
    · rintro ⟨c₀, hc₀, e, h1, h2, rfl⟩
      exact ⟨c₀, hc₀, by rw [keptEmb_eq_some.mpr ⟨h1, h2⟩, Option.map_some']⟩
  refine ⟨hperm, hmem, ?_, ?_, ?_, ?_⟩
  · rw [hperm.length_eq]
    rw [length_filterMap_eq]
    congr 1
    apply List.filter_congr
    intro c _
    rw [Option.isSome_map']
  · have hsorted : List.Pairwise candLe (rank_by_similarity q cands) :=
      List.sorted_insertionSort candLe _
    exact hsorted.imp (fun hab => (scoreLeB_iff _ _).mp hab)
  · intro s0
    apply filter_insertionSort
    intro a b ha hb
    unfold candLe
    rw [scoreLeB_iff]
    rw [scoreEqB_iff] at ha hb
    rw [ha, hb]
  · intro c hc
    obtain ⟨c₀, hc₀, e, h1, h2, rfl⟩ := (hmem c).mp hc
    exact ⟨c₀, e, hc₀, keptEmb_eq_some.mpr ⟨h1, h2⟩, rfl, rfl, rfl,
      scoreVal_cosineScore q e⟩

theorem c6_witness :
    List.Pairwise (fun x y => scoreVal (scoreKey y) ≤ scoreVal (scoreKey x))
      (rank_by_similarity [1, 0]
        [⟨some [0, 1], none, [("id", "a")]⟩,
         ⟨none, none, [("id", "b")]⟩,
         ⟨some [1, 0], none, [("id", "c")]⟩]) :=
  (c6_rank_by_similarity_contract [1, 0]
    [⟨some [0, 1], none, [("id", "a")]⟩,
     ⟨none, none, [("id", "b")]⟩,
     ⟨some [1, 0], none, [("id", "c")]⟩]
    (by decide)).2.2.2.1

/-- C7: over the explicit store, ranking never writes to an existing
address (the original heap is an unchanged prefix of the final heap), the
returned candidate mappings are all freshly allocated (their addresses lie
at or past the original heap's end), and running the ranking twice on the
same references yields identical candidate values — the second run, on the
heap the first run produced, dereferences to exactly the same scored
copies, namely the stable descending sort of the scored originals. -/
theorem c7_rank_pure (q : List ℚ) (heap : List Cand) (addrs : List Nat)
    (hv : ∀ a ∈ addrs, a < heap.length) :
    (rankHeap q heap addrs).1.take heap.length = heap
    ∧ (∀ a ∈ (rankHeap q heap addrs).2, heap.length ≤ a)
    ∧ (rankHeap q heap addrs).2.map
        (fun a => ((rankHeap q heap addrs).1[a]?).getD default) =
      (loopVals q heap addrs).insertionSort candLe
    ∧ (rankHeap q (rankHeap q heap addrs).1 addrs).2.map
        (fun a => ((rankHeap q (rankHeap q heap addrs).1 addrs).1[a]?).getD default) =
      (rankHeap q heap addrs).2.map
        (fun a => ((rankHeap q heap addrs).1[a]?).getD default) := by
  have hvals : ∀ (h₀ : List Cand), (∀ a ∈ addrs, a < h₀.length) →
      (rankHeap q h₀ addrs).2.map
        (fun a => ((rankHeap q h₀ addrs).1[a]?).getD default) =
      (loopVals q h₀ addrs).insertionSort candLe := by
    intro h₀ hv₀
    unfold rankHeap
    rw [List.map_insertionSort (addrLe (rankHeapLoop q h₀ addrs).1) candLe
      (fun a => ((rankHeapLoop q h₀ addrs).1[a]?).getD default) _
      (fun a _ b _ => Iff.rfl)]
    rw [rankHeapLoop_vals q addrs h₀ hv₀]
  obtain ⟨d, hd⟩ := rankHeapLoop_heap_append q addrs heap
  have hheap1 : (rankHeap q heap addrs).1 = heap ++ d := hd
  refine ⟨?_, ?_, hvals heap hv, ?_⟩
  · rw [hheap1, List.take_left]
  · intro a ha
    unfold rankHeap at ha
    rw [List.mem_insertionSort] at ha
    exact rankHeapLoop_out_fresh q addrs heap a ha
  · have hv1 : ∀ a ∈ addrs, a < (rankHeap q heap addrs).1.length := by
      intro a ha
      rw [hheap1, List.length_append]
      exact lt_of_lt_of_le (hv a ha) (Nat.le_add_right _ _)
    rw [hvals _ hv1, hvals heap hv]
    congr 1
    apply loopVals_congr
    intro a ha
    rw [hheap1]
    exact List.getElem?_append_left (hv a ha)

theorem c7_witness :
    (rankHeap [1] [⟨some [1], none, []⟩, ⟨none, none, []⟩] [0, 1]).1.take 2 =
      [⟨some [1], none, []⟩, ⟨none, none, []⟩] :=
  (c7_rank_pure [1] [⟨some [1], none, []⟩, ⟨none, none, []⟩] [0, 1]
    (by decide)).1

/-- C8: when either vector's L2 norm is exactly zero — equivalently, its
sum of squares `normSq` is zero, the second conjunct — `cosine_similarity`
returns exactly `0`, never dividing by the zero norm (no NaN/∞ exists in
the exact-real semantics, and the guard keeps the division total). -/
theorem c8_cosine_zero_norm (a b : List ℚ) (h : normSq a = 0 ∨ normSq b = 0) :
    cosine_similarity a b = 0 ∧
    (Real.sqrt ((normSq a : ℚ) : ℝ) = 0 ∨ Real.sqrt ((normSq b : ℚ) : ℝ) = 0) := by
  constructor
  · rcases h with h | h <;> simp [cosine_similarity, h]
  · rcases h with h | h
    · exact Or.inl (by rw [h]; simp)
    · exact Or.inr (by rw [h]; simp)

theorem c8_witness :
    normSq ([0, 0] : List ℚ) = 0 ∧ cosine_similarity [0, 0] [1, 2] = 0 :=
  ⟨by simp [normSq], (c8_cosine_zero_norm [0, 0] [1, 2] (Or.inl (by simp [normSq]))).1⟩

/-- C9: the Gemini request builder maps every turn whose role is not
`"user"` — a `"system"` turn included (last conjunct) — to a content entry
with role `"model"`, and only turns with role exactly `"user"` keep the
user role; the built list has one entry per turn. -/
theorem c9_gemini_role_mapping (msgs : List Msg) (atts : List Attachment) :
    (build_gemini_contents atts msgs).length = msgs.length
    ∧ (∀ i : Nat, ((build_gemini_contents atts msgs)[i]?).map GContent.role =
        (msgs[i]?).map (fun m => if m.role = "user" then "user" else "model"))
    ∧ (build_gemini_contents atts [⟨"system", "s"⟩]).map GContent.role = ["model"] := by
  refine ⟨?_, ?_, rfl⟩
  · induction msgs with
    | nil => rfl
    | cons m ms ih =>
      rw [build_gemini_contents, List.length_cons, List.length_cons, ih]
  · intro i
    induction msgs generalizing i with
    | nil => rfl
    | cons m ms ih =>
      cases i with
      | zero =>
        rw [build_gemini_contents]
        simp only [List.getElem?_cons_zero, Option.map_some']
      | succ n =>
        rw [build_gemini_contents]
        simp only [List.getElem?_cons_succ]
        exact ih n

/-- C10: a chat call in json mode whose provider text is empty,
all-whitespace, or a null coerced to the empty string does not raise: the
empty-response error from extraction is caught and the call returns the
fallback shape whose `response` is that raw text and whose
`topic.confidence` is `0` (whitespace contains no `"response"` key for the
salvage pattern, so the raw text itself is kept). -/
theorem c10_empty_text_fallback (rawText : Option String)
    (h : pyStrip (rawText.getD "") = "") :
    gemini_chat_result true rawText =
      .obj [("response", .str (rawText.getD "")),
            ("topic", .obj [("name", .str ""), ("matchedExistingId", .null),
                            ("confidence", .num "0")]),
            ("concepts", .arr [])] := by
  unfold gemini_chat_result
  rw [if_pos rfl]
  have hext : extract_json (rawText.getD "") = .error .empty := by
    unfold extract_json
    rw [if_pos (Or.inr h)]
  rw [hext, fallback_response_shape, fallbackText_of_all_ws h]

theorem c10_witness :
    gemini_chat_result true none =
      .obj [("response", .str ""),
            ("topic", .obj [("name", .str ""), ("matchedExistingId", .null),
                            ("confidence", .num "0")]),
            ("concepts", .arr [])] ∧
    gemini_chat_result true (some " \n ") =
      .obj [("response", .str " \n "),
            ("topic", .obj [("name", .str ""), ("matchedExistingId", .null),
                            ("confidence", .num "0")]),
            ("concepts", .arr [])] :=
  ⟨c10_empty_text_fallback none (by decide),
   c10_empty_text_fallback (some " \n ") (by decide)⟩
